import Mathlib

/-!
Verification of the shift6 coverage-tracker core against its specification.

The development shallowly embeds two kinds of material:

* the frontend paste parser `parsePaste` (CoverageApp), translated
  statement-for-statement from the TypeScript source; strings are modelled as
  `List Char`, JavaScript's `String.prototype.trim`, `split`, `toLowerCase`,
  `includes` and `findIndex` are given faithful list-level counterparts;

* the backend core (cadence state machine, matching engine, hit store,
  scheduler leasing), whose implementation is not part of the repository
  snapshot; those definitions are modelled from the specification text and
  each carries a doc comment saying so.
-/

namespace Shift6

/-! ## JavaScript string primitives over `List Char` -/

/-- Whitespace characters recognised by JavaScript's `String.prototype.trim`
(the ASCII part, which is all the repository's inputs use). -/
def isWs (c : Char) : Bool :=
  c = ' ' || c = '\t' || c = '\n' || c = '\r' || c = '\x0b' || c = '\x0c'

/-- JavaScript `s.trim()`: drop leading whitespace, then trailing whitespace. -/
def jsTrim (s : List Char) : List Char :=
  (s.dropWhile isWs).rdropWhile isWs

/-- JavaScript `s.toLowerCase()` (ASCII behaviour). -/
def jsLower (s : List Char) : List Char :=
  s.map Char.toLower

/-- `a` is a verbatim leading segment of `b`. -/
def startsWithSeq : List Char → List Char → Bool
  | [], _ => true
  | _ :: _, [] => false
  | a :: as, b :: bs => a == b && startsWithSeq as bs

/-- JavaScript `hay.includes(needle)`: `needle` occurs contiguously in `hay`. -/
def containsSeq (needle : List Char) : List Char → Bool
  | [] => startsWithSeq needle []
  | b :: bs => startsWithSeq needle (b :: bs) || containsSeq needle bs

/-- Drop a single trailing carriage return, as the regex `/\r?\n/` consumes
one optional `\r` before each `\n`. -/
def dropCR (l : List Char) : List Char :=
  if l.getLast? = some '\r' then l.dropLast else l

/-- Apply `f` to every element except the last one. -/
def mapInit (f : α → α) : List α → List α
  | [] => []
  | [a] => [a]
  | a :: b :: as => f a :: mapInit f (b :: as)

/-- JavaScript `text.split(/\r?\n/)`: split on `\n`, each piece other than the
last losing one trailing `\r` (a final `\r` not followed by `\n` stays). -/
def splitLines (s : List Char) : List (List Char) :=
  mapInit dropCR (s.splitOn '\n')

/-- JavaScript `cols[i] || ''` with `i` possibly `-1` (`findIndex` miss):
out-of-range or missing indices give the empty string. -/
def colAt (cols : List (List Char)) : Option Nat → List Char
  | none => []
  | some k => cols.getD k []

/-! ## The paste parser (`parsePaste` in CoverageApp.tsx) -/

/-- The two paste modes of the coverage frontend. -/
inductive PasteMode
  | csv
  | lines
deriving DecidableEq

/-- One parsed quote row, as produced by `parsePaste`. -/
structure PasteItem where
  client_name : List Char
  quote_text : List Char
deriving DecidableEq

/-- The component state `parsePaste` reads: the selected mode, the textarea
content, and the client field used in `lines` mode. -/
structure PasteForm where
  pasteMode : PasteMode
  pasteText : List Char
  pasteClient : List Char

/-- One CSV data row: split on bare commas, pick the client and quote columns,
trim both, keep the row only when both are non-empty. -/
def csvRow (ci qi : Option Nat) (line : List Char) : Option PasteItem :=
  let cols := line.splitOn ','
  let client := jsTrim (colAt cols ci)
  let quote := jsTrim (colAt cols qi)
  if client.isEmpty || quote.isEmpty then none else some ⟨client, quote⟩

/-- The body of a `lines`-mode row: trim the line, keep it when non-empty. -/
def lineRow (client : List Char) (line : List Char) : Option PasteItem :=
  let quote := jsTrim line
  if quote.isEmpty then none else some ⟨client, quote⟩

/-- The `csv` branch of `parsePaste`: the first line is the header; the client
and quote column indices are the first header cells whose lowercased trimmed
text contains `client` resp. `quote`; only lines after the header are scanned. -/
def csvItems (text : List Char) : List PasteItem :=
  let lns := splitLines text
  let header := (lns.headD []).splitOn ',' |>.map (fun h => jsLower (jsTrim h))
  let ci := header.findIdx? (fun h => containsSeq ['c', 'l', 'i', 'e', 'n', 't'] h)
  let qi := header.findIdx? (fun h => containsSeq ['q', 'u', 'o', 't', 'e'] h)
  (lns.drop 1).filterMap (csvRow ci qi)

/-- The `lines` branch of `parsePaste`: with a blank client nothing is parsed,
otherwise every non-blank line becomes a quote for that client. -/
def linesItems (client text : List Char) : List PasteItem :=
  if client.isEmpty then []
  else (splitLines text).filterMap (lineRow client)

/-- `parsePaste` from CoverageApp.tsx, translated clause by clause: trim the
textarea, return nothing when it is blank, otherwise dispatch on the mode. -/
def parsePaste (f : PasteForm) : List PasteItem :=
  let text := jsTrim f.pasteText
  if text.isEmpty then []
  else
    match f.pasteMode with
    | .csv => csvItems text
    | .lines => linesItems (jsTrim f.pasteClient) text

/-! ## Support lemmas about the string primitives -/

/-- `rdropWhile` keeps a leading segment of the list. -/
theorem rdropWhile_eq_append (p : α → Bool) (l : List α) :
    ∃ u, l = l.rdropWhile p ++ u := by
  obtain ⟨u, hu⟩ := List.dropWhile_suffix (l := l.reverse) p
  refine ⟨u.reverse, ?_⟩
  have h := congrArg List.reverse hu
  simpa [List.rdropWhile] using h.symm

/-- If a list has no leading `p`-run, removing a trailing `p`-run cannot create
one. -/
theorem dropWhile_of_rdropWhile {p : α → Bool} {l : List α}
    (h : l.dropWhile p = l) : (l.rdropWhile p).dropWhile p = l.rdropWhile p := by
  obtain ⟨u, hu⟩ := rdropWhile_eq_append p l
  cases hr : l.rdropWhile p with
  | nil => simp
  | cons a v =>
    rw [hr, List.cons_append] at hu
    have hpa : p a = false := by
      cases hpa : p a
      · rfl
      · exfalso
        rw [hu, List.dropWhile_cons, if_pos hpa] at h
        have hlen := congrArg List.length h
        have hle := (List.dropWhile_sublist (l := v ++ u) p).length_le
        simp only [List.length_cons] at hlen
        omega
    rw [List.dropWhile_cons, if_neg (by simp [hpa])]

/-- Trimming is idempotent. -/
theorem jsTrim_idem (s : List Char) : jsTrim (jsTrim s) = jsTrim s := by
  unfold jsTrim
  rw [dropWhile_of_rdropWhile (List.dropWhile_idempotent isWs s),
    List.rdropWhile_idempotent]

/-- Every character of the trimmed list already occurs in the original. -/
theorem mem_of_mem_jsTrim {x : Char} {s : List Char} (h : x ∈ jsTrim s) :
    x ∈ s := by
  unfold jsTrim at h
  obtain ⟨u, hu⟩ := rdropWhile_eq_append isWs (s.dropWhile isWs)
  have h1 : x ∈ s.dropWhile isWs := by
    rw [hu]; exact List.mem_append_left _ h
  obtain ⟨v, hv⟩ := List.dropWhile_suffix (l := s) isWs
  rw [← hv]
  exact List.mem_append_right _ h1

/-- Elements of the chunks of `splitOnP` never satisfy the splitting
predicate. -/
theorem splitOnP_chunk_not {p : α → Bool} :
    ∀ (l : List α), ∀ c ∈ l.splitOnP p, ∀ x ∈ c, p x = false := by
  intro l
  induction l with
  | nil =>
    intro c hc x hx
    rw [List.splitOnP_nil] at hc
    simp only [List.mem_singleton] at hc
    subst hc
    simp at hx
  | cons a as ih =>
    intro c hc x hx
    rw [List.splitOnP_cons] at hc
    by_cases hpa : p a
    · rw [if_pos hpa] at hc
      rcases List.mem_cons.mp hc with h | h
      · subst h; simp at hx
      · exact ih c h x hx
    · rw [if_neg hpa] at hc
      cases hsp : as.splitOnP p with
      | nil => exact absurd hsp (List.splitOnP_ne_nil p as)
      | cons hd tl =>
        rw [hsp, List.modifyHead_cons] at hc
        rcases List.mem_cons.mp hc with h | h
        · subst h
          rcases List.mem_cons.mp hx with rfl | hx'
          · simpa using hpa
          · exact ih hd (by rw [hsp]; exact List.mem_cons_self _ _) x hx'
        · exact ih c (by rw [hsp]; exact List.mem_cons_of_mem _ h) x hx

/-- The separator never occurs inside a chunk produced by `splitOn`. -/
theorem sep_not_mem_splitOn {sep : Char} {l c : List Char}
    (hc : c ∈ l.splitOn sep) : sep ∉ c := by
  intro hmem
  have h := splitOnP_chunk_not (p := (· == sep)) l c (by simpa [List.splitOn] using hc) sep hmem
  simp at h

/-- `filterMap` keeps exactly the elements on which the function succeeds. -/
theorem length_filterMap_eq_filter (g : α → Option β) (l : List α) :
    (l.filterMap g).length = (l.filter (fun a => (g a).isSome)).length := by
  induction l with
  | nil => rfl
  | cons a as ih =>
    cases hg : g a with
    | none => simp [List.filterMap_cons, hg, ih]
    | some b => simp [List.filterMap_cons, hg, ih]

/-! ## Properties of the paste parser -/

/-- A comma never occurs in a column extracted by `colAt` after splitting a
line on commas. -/
theorem comma_not_mem_colAt {line : List Char} {i : Option Nat} :
    ',' ∉ colAt (line.splitOn ',') i := by
  intro hmem
  cases i with
  | none => simp [colAt] at hmem
  | some k =>
    simp only [colAt] at hmem
    rw [List.getD_eq_getElem?_getD] at hmem
    cases hk : (line.splitOn ',')[k]? with
    | none => rw [hk] at hmem; simp at hmem
    | some c =>
      rw [hk] at hmem
      exact sep_not_mem_splitOn (List.getElem?_mem hk) hmem

/-- Every row `csvRow` keeps is well-formed: both fields are non-empty,
trimmed, and comma-free. -/
theorem csvRow_wf {ci qi : Option Nat} {line : List Char} {it : PasteItem}
    (h : csvRow ci qi line = some it) :
    it.client_name ≠ [] ∧ jsTrim it.client_name = it.client_name ∧
    it.quote_text ≠ [] ∧ jsTrim it.quote_text = it.quote_text ∧
    ',' ∉ it.client_name ∧ ',' ∉ it.quote_text := by
  simp only [csvRow] at h
  split at h
  · exact absurd h (by simp)
  · rename_i hcond
    rw [Option.some.injEq] at h
    subst h
    simp only [Bool.or_eq_true, not_or, Bool.not_eq_true] at hcond
    obtain ⟨hc, hq⟩ := hcond
    refine ⟨?_, jsTrim_idem _, ?_, jsTrim_idem _, ?_, ?_⟩
    · intro hnil
      have hn : jsTrim (colAt (line.splitOn ',') ci) = [] := hnil
      rw [hn] at hc
      simp at hc
    · intro hnil
      have hn : jsTrim (colAt (line.splitOn ',') qi) = [] := hnil
      rw [hn] at hq
      simp at hq
    · exact fun hmem => comma_not_mem_colAt (mem_of_mem_jsTrim hmem)
    · exact fun hmem => comma_not_mem_colAt (mem_of_mem_jsTrim hmem)

/-- Every row `lineRow` keeps carries the given client and a non-empty trimmed
quote. -/
theorem lineRow_wf {client line : List Char} {it : PasteItem}
    (h : lineRow client line = some it) :
    it.client_name = client ∧ it.quote_text ≠ [] ∧
    jsTrim it.quote_text = it.quote_text := by
  simp only [lineRow] at h
  split at h
  · exact absurd h (by simp)
  · rename_i hcond
    rw [Option.some.injEq] at h
    subst h
    refine ⟨rfl, ?_, jsTrim_idem _⟩
    intro hnil
    have hn : jsTrim line = [] := hnil
    rw [hn] at hcond
    simp at hcond

/-- `lineRow` succeeds exactly on lines with non-blank trim. -/
theorem lineRow_isSome (client line : List Char) :
    (lineRow client line).isSome = !(jsTrim line).isEmpty := by
  simp only [lineRow]
  by_cases hb : (jsTrim line).isEmpty <;> simp [hb]

/-- C10: `parsePaste` (total by construction as a Lean function) returns only
well-formed quote items: in both modes every returned item has a non-empty,
whitespace-trimmed `client_name` and `quote_text`; in `lines` mode a blank
client field yields the empty list and exactly the non-blank lines produce
items; in `csv` mode the header line never yields an item (at most one item
per non-header line) and, because rows are split on bare commas, no returned
field contains a comma — quote text containing a comma is silently truncated
at the first comma of its column, as the closing concrete conjunct shows. -/
theorem parsePaste_wellFormed (f : PasteForm) :
    (∀ it ∈ parsePaste f,
        it.client_name ≠ [] ∧ jsTrim it.client_name = it.client_name ∧
        it.quote_text ≠ [] ∧ jsTrim it.quote_text = it.quote_text) ∧
    (f.pasteMode = .lines → jsTrim f.pasteClient = [] → parsePaste f = []) ∧
    (f.pasteMode = .lines → jsTrim f.pasteClient ≠ [] →
        (parsePaste f).length =
          ((splitLines (jsTrim f.pasteText)).filter
            (fun l => !(jsTrim l).isEmpty)).length) ∧
    (f.pasteMode = .csv →
        (parsePaste f).length ≤ (splitLines (jsTrim f.pasteText)).length - 1) ∧
    (f.pasteMode = .csv → ∀ it ∈ parsePaste f,
        ',' ∉ it.client_name ∧ ',' ∉ it.quote_text) ∧
    parsePaste ⟨.csv, "client,quote\nAcme,Hello, world".data, []⟩ =
      [⟨"Acme".data, "Hello".data⟩] := by
  obtain ⟨mode, ptext, pclient⟩ := f
  refine ⟨?_, ?_, ?_, ?_, ?_, by decide⟩
  · intro it hit
    simp only [parsePaste] at hit
    split at hit
    · simp at hit
    · cases mode with
      | csv =>
        simp only [csvItems] at hit
        rw [List.mem_filterMap] at hit
        obtain ⟨line, _, heq⟩ := hit
        obtain ⟨h1, h2, h3, h4, _, _⟩ := csvRow_wf heq
        exact ⟨h1, h2, h3, h4⟩
      | lines =>
        simp only [linesItems] at hit
        split at hit
        · simp at hit
        · rename_i hcl
          rw [List.mem_filterMap] at hit
          obtain ⟨line, _, heq⟩ := hit
          obtain ⟨hcn, hq1, hq2⟩ := lineRow_wf heq
          refine ⟨?_, ?_, hq1, hq2⟩
          · rw [hcn]
            intro hnil
            rw [hnil] at hcl
            simp at hcl
          · rw [hcn]
            exact jsTrim_idem _
  · intro hm hbc
    subst hm
    by_cases ht : (jsTrim ptext).isEmpty <;>
      simp [parsePaste, linesItems, ht, hbc]
  · intro hm hnc
    subst hm
    by_cases ht : (jsTrim ptext).isEmpty
    · rw [List.isEmpty_iff.mp ht]
      simp only [parsePaste, ht, if_true, List.length_nil]
      decide
    · have hcl : (jsTrim pclient).isEmpty = false := by
        cases hb : (jsTrim pclient).isEmpty
        · rfl
        · exact absurd (List.isEmpty_iff.mp hb) hnc
      simp only [parsePaste, ht, Bool.false_eq_true, if_false, linesItems,
        hcl, if_false]
      rw [length_filterMap_eq_filter]
      congr 1
      exact List.filter_congr (fun a _ => lineRow_isSome _ a)
  · intro hm
    subst hm
    by_cases ht : (jsTrim ptext).isEmpty
    · simp [parsePaste, ht]
    · simp only [parsePaste, ht, Bool.false_eq_true, if_false, csvItems]
      calc (((splitLines (jsTrim ptext)).drop 1).filterMap _).length
          ≤ ((splitLines (jsTrim ptext)).drop 1).length :=
            List.length_filterMap_le _ _
        _ = (splitLines (jsTrim ptext)).length - 1 := by
            rw [List.length_drop]
  · intro hm it hit
    subst hm
    simp only [parsePaste] at hit
    split at hit
    · simp at hit
    · simp only [csvItems] at hit
      rw [List.mem_filterMap] at hit
      obtain ⟨line, _, heq⟩ := hit
      obtain ⟨_, _, _, _, h5, h6⟩ := csvRow_wf heq
      exact ⟨h5, h6⟩

/-- Witness for C10 at concrete forms: a blank client in `lines` mode parses
to nothing, and on a non-blank form exactly the non-blank lines count. -/
theorem parsePaste_wellFormed_witness :
    parsePaste ⟨.lines, "hello".data, "  ".data⟩ = [] ∧
    (parsePaste ⟨.lines, " a\n\nb ".data, " Acme ".data⟩).length =
      ((splitLines (jsTrim " a\n\nb ".data)).filter
        (fun l => !(jsTrim l).isEmpty)).length :=
  ⟨(parsePaste_wellFormed ⟨.lines, "hello".data, "  ".data⟩).2.1 rfl (by decide),
   (parsePaste_wellFormed ⟨.lines, " a\n\nb ".data, " Acme ".data⟩).2.2.1 rfl
     (by decide)⟩

/-! ## Cadence state machine

The backend implementation is not part of the repository snapshot; the
transition function below is modelled from the specification (§4.1) and the
scratchpad's cadence table.  Timestamps and durations are minutes as `Nat`. -/

/-- Minutes in an hour. -/
def minutesPerHour : Nat := 60

/-- Minutes in a day. -/
def minutesPerDay : Nat := 1440

/-- Minutes in a week. -/
def minutesPerWeek : Nat := 7 * 1440

/-- Minutes in the roughly-quarterly cadence (~90 days). -/
def minutesPerQuarter : Nat := 90 * 1440

/-- The cadence states of a tracked quote (spec §4.1): hourly → daily →
quarterly, with a weekly expired lane; no terminal state. -/
inductive QuoteState
  | ACTIVE_HOURLY
  | ACTIVE_DAILY
  | ACTIVE_QUARTERLY
  | EXPIRED_WEEKLY
deriving DecidableEq

/-- A scheduler cycle's search outcome for one quote. -/
inductive Outcome
  | noMatch
  | matched
deriving DecidableEq

/-- Modelled from the spec: the scheduler-owned fields of a TrackedQuote used
by the cadence transition (spec §3): state, timing fields and the counters
`hit_count`, `days_without_hit` and the consecutive-daily-hit-days counter. -/
structure TrackedQuote where
  qid : Nat
  client_label : List Char
  text : List Char
  state : QuoteState
  added_at : Nat
  first_hit_at : Option Nat
  last_hit_at : Option Nat
  next_due_at : Nat
  hit_count : Nat
  days_without_hit : Nat
  consecDailyHitDays : Nat
deriving DecidableEq

/-- Elapsed whole days between two timestamps in minutes. -/
def elapsedWholeDays (now added : Nat) : Nat :=
  (now - added) / minutesPerDay

/-- Modelled from the spec: the pure cadence transition `next(state, outcome,
counters)` of §4.1, which computes the next state, the next due time and the
updated counters.  The backend implementation is absent from the snapshot, so
each clause transcribes one bullet of §4.1. -/
def next (q : TrackedQuote) (o : Outcome) (now : Nat) : TrackedQuote :=
  match q.state, o with
  | .ACTIVE_HOURLY, .matched =>
    { q with
      first_hit_at := match q.first_hit_at with
        | none => some now
        | some t => some t
      last_hit_at := some now
      state := .ACTIVE_DAILY
      next_due_at := now + minutesPerDay
      days_without_hit := 0 }
  | .ACTIVE_HOURLY, .noMatch =>
    let d := q.days_without_hit + elapsedWholeDays now q.added_at
    if 90 ≤ d then
      { q with
        state := .EXPIRED_WEEKLY
        next_due_at := now + minutesPerWeek
        days_without_hit := d }
    else
      { q with
        next_due_at := now + minutesPerHour
        days_without_hit := d }
  | .ACTIVE_DAILY, .matched =>
    let c := q.consecDailyHitDays + 1
    if 7 ≤ c then
      { q with
        state := .ACTIVE_QUARTERLY
        next_due_at := now + minutesPerQuarter
        consecDailyHitDays := c
        last_hit_at := some now
        days_without_hit := 0 }
    else
      { q with
        next_due_at := now + minutesPerDay
        consecDailyHitDays := c
        last_hit_at := some now
        days_without_hit := 0 }
  | .ACTIVE_DAILY, .noMatch =>
    { q with
      next_due_at := now + minutesPerDay
      consecDailyHitDays := 0 }
  | .ACTIVE_QUARTERLY, _ =>
    { q with next_due_at := now + minutesPerQuarter }
  | .EXPIRED_WEEKLY, _ =>
    { q with next_due_at := now + minutesPerWeek }

/-- Run `n` consecutive no-match cycles spaced one day apart, starting one day
after `start` (the §8 scenario of a quote that never finds coverage). -/
def runNoMatchDaily (q : TrackedQuote) (start : Nat) : Nat → TrackedQuote
  | 0 => q
  | k + 1 => next (runNoMatchDaily q start k) .noMatch (start + (k + 1) * minutesPerDay)

/-- A freshly ingested quote in the initial hourly state (scratchpad default:
`ACTIVE_HOURLY` with the next run due immediately). -/
def freshQuote (qid : Nat) (client text : List Char) (now : Nat) : TrackedQuote :=
  { qid := qid
    client_label := client
    text := text
    state := .ACTIVE_HOURLY
    added_at := now
    first_hit_at := none
    last_hit_at := none
    next_due_at := now
    hit_count := 0
    days_without_hit := 0
    consecDailyHitDays := 0 }

/-- C2: the cadence transition always schedules strictly into the future
(`next_due_at' > now`); consequently, for a quote processed because it was due
(`next_due_at ≤ now`) the stored due time strictly increases after the cycle. -/
theorem next_due_strictly_future (q : TrackedQuote) (o : Outcome) (now : Nat) :
    now < (next q o now).next_due_at ∧
    (q.next_due_at ≤ now → q.next_due_at < (next q o now).next_due_at) := by
  have h : now < (next q o now).next_due_at := by
    unfold next
    cases hs : q.state <;> cases o <;>
      simp [minutesPerDay, minutesPerHour, minutesPerWeek, minutesPerQuarter] <;>
      split <;>
      simp [minutesPerDay, minutesPerHour, minutesPerWeek, minutesPerQuarter]
  exact ⟨h, fun hle => lt_of_le_of_lt hle h⟩

/-- Witness for C2 at a concrete due quote. -/
theorem next_due_strictly_future_witness :
    (freshQuote 1 [] [] 0).next_due_at <
      (next (freshQuote 1 [] [] 0) .noMatch 0).next_due_at :=
  (next_due_strictly_future (freshQuote 1 [] [] 0) .noMatch 0).2 (by decide)

/-- C5: from `ACTIVE_HOURLY`, a matched outcome sets `first_hit_at` when it
was unset (and keeps it otherwise), moves the state to `ACTIVE_DAILY`,
schedules the next check one day ahead, and resets `days_without_hit` to 0. -/
theorem hourly_matched_transition (q : TrackedQuote) (now : Nat)
    (h : q.state = .ACTIVE_HOURLY) :
    (next q .matched now).state = .ACTIVE_DAILY ∧
    (next q .matched now).next_due_at = now + minutesPerDay ∧
    (next q .matched now).days_without_hit = 0 ∧
    (q.first_hit_at = none → (next q .matched now).first_hit_at = some now) ∧
    (∀ t, q.first_hit_at = some t → (next q .matched now).first_hit_at = some t) := by
  obtain ⟨qid, cl, tx, st, aa, fh, lh, nd, hc, dwh, cdh⟩ := q
  have h' : st = .ACTIVE_HOURLY := h
  subst h'
  refine ⟨rfl, rfl, rfl, ?_, ?_⟩
  · intro h0
    have h0' : fh = none := h0
    subst h0'
    rfl
  · intro t ht
    have ht' : fh = some t := ht
    subst ht'
    rfl

/-- Witness for C5 at a fresh hourly quote. -/
theorem hourly_matched_transition_witness :
    (next (freshQuote 1 [] [] 5) .matched 10).state = .ACTIVE_DAILY ∧
    (next (freshQuote 1 [] [] 5) .matched 10).first_hit_at = some 10 :=
  ⟨(hourly_matched_transition (freshQuote 1 [] [] 5) 10 rfl).1,
   (hourly_matched_transition (freshQuote 1 [] [] 5) 10 rfl).2.2.2.1 rfl⟩

set_option maxRecDepth 10000 in
/-- C6: from `ACTIVE_HOURLY`, a no-match outcome adds the elapsed whole days
since `added_at` to `days_without_hit` and schedules one hour ahead; once the
counter reaches 90 the state becomes `EXPIRED_WEEKLY` with a weekly due time.
A fresh quote run with zero candidates for 91 consecutive daily cycles ends in
`EXPIRED_WEEKLY`. -/
theorem hourly_nomatch_transition (q : TrackedQuote) (now : Nat)
    (h : q.state = .ACTIVE_HOURLY) :
    (next q .noMatch now).days_without_hit =
        q.days_without_hit + elapsedWholeDays now q.added_at ∧
    (q.days_without_hit + elapsedWholeDays now q.added_at < 90 →
        (next q .noMatch now).state = .ACTIVE_HOURLY ∧
        (next q .noMatch now).next_due_at = now + minutesPerHour) ∧
    (90 ≤ q.days_without_hit + elapsedWholeDays now q.added_at →
        (next q .noMatch now).state = .EXPIRED_WEEKLY ∧
        (next q .noMatch now).next_due_at = now + minutesPerWeek) ∧
    (runNoMatchDaily
        (freshQuote 1 "Acme".data "We are expanding to Europe".data 0)
        0 91).state = .EXPIRED_WEEKLY := by
  have e : next q .noMatch now =
      if 90 ≤ q.days_without_hit + elapsedWholeDays now q.added_at then
        { q with
          state := .EXPIRED_WEEKLY
          next_due_at := now + minutesPerWeek
          days_without_hit := q.days_without_hit + elapsedWholeDays now q.added_at }
      else
        { q with
          next_due_at := now + minutesPerHour
          days_without_hit := q.days_without_hit + elapsedWholeDays now q.added_at } := by
    unfold next
    rw [h]
  by_cases hd : 90 ≤ q.days_without_hit + elapsedWholeDays now q.added_at
  · rw [e, if_pos hd]
    exact ⟨rfl, fun hlt => absurd hd (by omega), fun _ => ⟨rfl, rfl⟩, by decide⟩
  · rw [e, if_neg hd]
    exact ⟨rfl, fun _ => ⟨h, rfl⟩, fun hge => absurd hge hd, by decide⟩

/-- Witness for C6 at a fresh hourly quote checked an hour after creation. -/
theorem hourly_nomatch_transition_witness :
    (next (freshQuote 1 [] [] 0) .noMatch 60).state = .ACTIVE_HOURLY ∧
    (next (freshQuote 1 [] [] 0) .noMatch 60).next_due_at = 60 + minutesPerHour :=
  (hourly_nomatch_transition (freshQuote 1 [] [] 0) 60 rfl).2.1 (by decide)

/-! ## Hit store and notifier

Modelled from the spec (§4.5, §4.6): the backend hit persistence is absent
from the snapshot; `upsert` is insert-or-ignore keyed by the globally unique
`url`, and the notifier trace records exactly the genuinely new inserts. -/

/-- Modelled from the spec: a stored Hit (§3), restricted to the fields
relevant to ownership and deduplication. -/
structure Hit where
  tracked_quote_id : Nat
  client_label : List Char
  url : List Char
  title : List Char
deriving DecidableEq

/-- Modelled from the spec: the hit store state together with the trace of
notifier invocations (`notify` fires exactly on a genuinely new insert). -/
structure HitStore where
  hits : List Hit
  notified : List Hit
deriving DecidableEq

/-- The store before any upsert. -/
def emptyStore : HitStore := ⟨[], []⟩

/-- Does the store already contain this canonical URL? -/
def hasUrl (s : HitStore) (u : List Char) : Bool :=
  s.hits.any (fun h => h.url == u)

/-- Modelled from the spec: `upsert(hit)` — insert-or-ignore keyed by `url`;
returns the new store and whether the hit was genuinely new; a duplicate URL
is a no-op reporting "not new", and the notifier fires only on a new insert. -/
def upsert (s : HitStore) (h : Hit) : HitStore × Bool :=
  if hasUrl s h.url then (s, false)
  else (⟨s.hits ++ [h], s.notified ++ [h]⟩, true)

/-- Modelled from the spec: the scheduler counts a hit toward
`hit_count`/`last_hit_at` only on the store's "new insert" signal (§4.5). -/
def recordHit (q : TrackedQuote) (s : HitStore) (h : Hit) (now : Nat) :
    TrackedQuote × HitStore :=
  let r := upsert s h
  (if r.2 then { q with hit_count := q.hit_count + 1, last_hit_at := some now }
   else q,
   r.1)

/-- Run a sequence of upsert calls in order, keeping only the store. -/
def runUpserts (s : HitStore) (hs : List Hit) : HitStore :=
  hs.foldl (fun s h => (upsert s h).1) s

/-- How many entries of the list carry the given URL. -/
def countUrl (l : List Hit) (u : List Char) : Nat :=
  l.countP (fun h => h.url == u)

/-- The store invariant tying the three observations together: notifier
invocations match stored hits URL-wise, and each URL is stored at most once
(exactly once when `hasUrl` holds). -/
def storeCoherent (s : HitStore) : Prop :=
  ∀ u, countUrl s.notified u = countUrl s.hits u ∧
    countUrl s.hits u = (if hasUrl s u then 1 else 0)

theorem storeCoherent_empty : storeCoherent emptyStore := by
  intro u
  simp [countUrl, emptyStore, hasUrl]

theorem hasUrl_upsert (s : HitStore) (x : Hit) (u : List Char) :
    hasUrl (upsert s x).1 u = (hasUrl s u || x.url == u) := by
  unfold upsert
  by_cases hx : hasUrl s x.url
  · rw [if_pos hx]
    cases hxu : x.url == u
    · simp
    · have : x.url = u := by simpa using hxu
      subst this
      simp [hx]
  · rw [if_neg hx]
    simp [hasUrl, List.any_append]

theorem storeCoherent_upsert {s : HitStore} (hs : storeCoherent s) (x : Hit) :
    storeCoherent (upsert s x).1 := by
  intro u
  obtain ⟨hn, hc⟩ := hs u
  unfold upsert
  by_cases hx : hasUrl s x.url
  · rw [if_pos hx]
    exact ⟨hn, hc⟩
  · rw [if_neg hx]
    have hcount : ∀ l, countUrl (l ++ [x]) u =
        countUrl l u + (if x.url == u then 1 else 0) := by
      intro l
      simp [countUrl, List.countP_append, List.countP_cons]
    constructor
    · simp only [hcount, hn]
    · cases hxu : x.url == u
      · have hhas : (hasUrl s u || x.url == u) = hasUrl s u := by
          rw [hxu, Bool.or_false]
        have h1 : hasUrl (upsert s x).1 u = hasUrl s u := by
          rw [hasUrl_upsert, hhas]
        unfold upsert at h1
        rw [if_neg hx] at h1
        simp only [hcount, hxu, if_false]
        rw [h1, hc]
        simp
      · have hequ : x.url = u := by simpa using hxu
        subst hequ
        have h0 : countUrl s.hits x.url = 0 := by
          rw [hc, if_neg (by simp [hx])]
        have h1 : hasUrl (upsert s x).1 x.url = true := by
          rw [hasUrl_upsert]
          simp
        unfold upsert at h1
        rw [if_neg hx] at h1
        simp only [hcount, hxu, if_true]
        rw [h0, h1]
        simp

theorem storeCoherent_run (hs : List Hit) :
    ∀ s, storeCoherent s → storeCoherent (runUpserts s hs) := by
  induction hs with
  | nil => intro s h; exact h
  | cons x t ih =>
    intro s h
    exact ih _ (storeCoherent_upsert h x)

theorem hasUrl_run (hs : List Hit) :
    ∀ (s : HitStore) (u : List Char),
      hasUrl (runUpserts s hs) u = (hasUrl s u || hs.any (fun h => h.url == u)) := by
  induction hs with
  | nil => intro s u; simp [runUpserts]
  | cons x t ih =>
    intro s u
    show hasUrl (runUpserts (upsert s x).1 t) u = _
    rw [ih, hasUrl_upsert]
    simp [Bool.or_assoc]

/-- C1: hit upsert is idempotent on URL and gates the notifier and counters:
a call on an already-present URL is a no-op reporting "not new"; a genuinely
new URL appends exactly that hit and notifies exactly once; over any sequence
of calls from the empty store each URL ends up stored (and notified) exactly
once as soon as some call carried it; and only the "new insert" signal counts
toward `hit_count`/`last_hit_at`. -/
theorem upsert_idempotent :
    (∀ (s : HitStore) (h : Hit), hasUrl s h.url = true → upsert s h = (s, false)) ∧
    (∀ (s : HitStore) (h : Hit), hasUrl s h.url = false →
      (upsert s h).2 = true ∧ (upsert s h).1.hits = s.hits ++ [h] ∧
      (upsert s h).1.notified = s.notified ++ [h]) ∧
    (∀ (hs : List Hit) (u : List Char),
      countUrl (runUpserts emptyStore hs).hits u =
        (if hs.any (fun h => h.url == u) then 1 else 0) ∧
      countUrl (runUpserts emptyStore hs).notified u =
        countUrl (runUpserts emptyStore hs).hits u) ∧
    (∀ (q : TrackedQuote) (s : HitStore) (h : Hit) (now : Nat),
      hasUrl s h.url = true → (recordHit q s h now).1 = q) ∧
    (∀ (q : TrackedQuote) (s : HitStore) (h : Hit) (now : Nat),
      hasUrl s h.url = false →
        (recordHit q s h now).1.hit_count = q.hit_count + 1 ∧
        (recordHit q s h now).1.last_hit_at = some now) := by
  refine ⟨?_, ?_, ?_, ?_, ?_⟩
  · intro s h hh
    simp [upsert, hh]
  · intro s h hh
    simp [upsert, hh]
  · intro hs u
    have hco := storeCoherent_run hs emptyStore storeCoherent_empty u
    have hh := hasUrl_run hs emptyStore u
    have hemp : hasUrl emptyStore u = false := by simp [hasUrl, emptyStore]
    rw [hemp, Bool.false_or] at hh
    exact ⟨by rw [hco.2, hh], hco.1⟩
  · intro q s h now hh
    simp [recordHit, upsert, hh]
  · intro q s h now hh
    simp [recordHit, upsert, hh]

/-- Witness for C1: the second upsert of the same URL — even from a different
tracked quote — is a no-op reporting "not new". -/
theorem upsert_idempotent_witness :
    upsert (upsert emptyStore ⟨1, "Acme".data, "https://x/a".data, []⟩).1
        ⟨2, "Globex".data, "https://x/a".data, []⟩ =
      ((upsert emptyStore ⟨1, "Acme".data, "https://x/a".data, []⟩).1, false) :=
  upsert_idempotent.1 _ _ (by decide)

/-- A new insert keeps the URLs pairwise distinct. -/
theorem nodup_urls_upsert {s : HitStore}
    (h : (s.hits.map Hit.url).Nodup) (x : Hit) :
    ((upsert s x).1.hits.map Hit.url).Nodup := by
  unfold upsert
  by_cases hx : hasUrl s x.url
  · rw [if_pos hx]
    exact h
  · rw [if_neg hx]
    show ((s.hits ++ [x]).map Hit.url).Nodup
    rw [List.map_append, List.nodup_append]
    refine ⟨h, by simp, ?_⟩
    intro a ha hmem
    simp only [List.map_cons, List.map_nil, List.mem_singleton] at hmem
    subst hmem
    rw [List.mem_map] at ha
    obtain ⟨h', hh', hurl⟩ := ha
    refine hx ?_
    unfold hasUrl
    rw [List.any_eq_true]
    exact ⟨h', hh', by simp [hurl]⟩

/-- C9: in every hit-store state reachable from the empty store by a sequence
of upsert calls, the stored URLs are pairwise distinct across the whole store
— in particular two hits owned by different TrackedQuotes never share a URL,
so the same article is never recorded twice. -/
theorem url_globally_unique (hs : List Hit) :
    ((runUpserts emptyStore hs).hits.map Hit.url).Nodup := by
  suffices hgen : ∀ (s : HitStore), (s.hits.map Hit.url).Nodup →
      ((runUpserts s hs).hits.map Hit.url).Nodup by
    exact hgen emptyStore (by simp [emptyStore])
  induction hs with
  | nil => intro s h; exact h
  | cons x t ih =>
    intro s h
    exact ih _ (nodup_urls_upsert h x)

/-! ## Scheduler due-selection and per-quote leasing

Modelled from the spec (§4.2, §5, §9): the scheduler is absent from the
snapshot; the in-flight lease set is the explicit per-id lease map of §9, a
tick dispatches the due quotes that are not already leased, and completing a
work unit releases the lease and logs the cycle's single atomic write. -/

/-- A row of the quotes table as the due-selection query sees it. -/
structure QuoteRow where
  qid : Nat
  next_due_at : Nat
deriving DecidableEq

/-- Modelled from the spec: the scheduler's live state — the in-flight lease
set keyed by quote id, and the log of persisted per-cycle writes. -/
structure SchedState where
  inFlight : List Nat
  writes : List Nat
  started : List Nat
deriving DecidableEq

/-- The due-selection query of a tick: ids of all rows with
`next_due_at ≤ now`. -/
def dueIds (table : List QuoteRow) (now : Nat) : List Nat :=
  (table.filter (fun r => decide (r.next_due_at ≤ now))).map QuoteRow.qid

/-- Modelled from the spec: one tick dispatches each due quote that is not
already in flight; a quote whose previous cycle is still running is skipped
for the tick, not queued twice. -/
def tickDispatch (s : SchedState) (table : List QuoteRow) (now : Nat) :
    SchedState :=
  { s with
    inFlight := s.inFlight ++
      (dueIds table now).filter (fun i => !s.inFlight.contains i)
    started := s.started ++
      (dueIds table now).filter (fun i => !s.inFlight.contains i) }

/-- Modelled from the spec: completing a work unit releases the lease and
persists the quote's updated fields in one atomic write. -/
def finishUnit (s : SchedState) (i : Nat) : SchedState :=
  if s.inFlight.contains i then
    { s with inFlight := s.inFlight.erase i, writes := s.writes ++ [i] }
  else s

/-- The observable scheduler events: timer ticks (with the table the due
query reads) and work-unit completions. -/
inductive SchedEvent
  | tick (table : List QuoteRow) (now : Nat)
  | finish (i : Nat)
deriving DecidableEq

/-- One scheduler step. -/
def stepSched (s : SchedState) : SchedEvent → SchedState
  | .tick table now => tickDispatch s table now
  | .finish i => finishUnit s i

/-- Run the scheduler from the idle state over a sequence of events. -/
def runSched (es : List SchedEvent) : SchedState :=
  es.foldl stepSched ⟨[], [], []⟩

/-- Every tick's table carries at most one row per quote id (the quotes table
has one row per quote). -/
def ticksOk (es : List SchedEvent) : Bool :=
  es.all (fun e =>
    match e with
    | .tick table _ => decide ((table.map QuoteRow.qid).Nodup)
    | .finish _ => true)

/-- The ids a tick dispatches are pairwise distinct and disjoint from the
current in-flight set. -/
theorem tickDispatch_nodup {s : SchedState} (hs : s.inFlight.Nodup)
    {table : List QuoteRow} (htab : (table.map QuoteRow.qid).Nodup)
    (now : Nat) : (tickDispatch s table now).inFlight.Nodup := by
  unfold tickDispatch
  rw [List.nodup_append]
  refine ⟨hs, ?_, ?_⟩
  · refine List.Nodup.filter _ ?_
    unfold dueIds
    exact ((List.filter_sublist table).map QuoteRow.qid).nodup htab
  · intro a ha hmem
    rw [List.mem_filter] at hmem
    have hnot : a ∉ s.inFlight := by simpa using hmem.2
    exact hnot ha

/-- Completion preserves distinctness of the in-flight set. -/
theorem finishUnit_nodup {s : SchedState} (hs : s.inFlight.Nodup) (i : Nat) :
    (finishUnit s i).inFlight.Nodup := by
  unfold finishUnit
  split
  · exact hs.erase i
  · exact hs

/-- The per-quote write accounting: completed writes plus live leases exactly
track the due cycles started. -/
def writesBalanced (s : SchedState) : Prop :=
  ∀ i, s.writes.count i + s.inFlight.count i = s.started.count i

/-- One scheduler step preserves the write accounting: a tick adds one lease
and one started cycle per dispatched quote; a completion turns exactly one
lease into exactly one persisted write. -/
theorem writesBalanced_step {s : SchedState} (hs : writesBalanced s)
    (e : SchedEvent) : writesBalanced (stepSched s e) := by
  intro i
  have hbal := hs i
  cases e with
  | tick table now =>
    show (tickDispatch s table now).writes.count i +
        (tickDispatch s table now).inFlight.count i =
      (tickDispatch s table now).started.count i
    unfold tickDispatch
    simp only [List.count_append]
    omega
  | finish q =>
    show (finishUnit s q).writes.count i + (finishUnit s q).inFlight.count i =
      (finishUnit s q).started.count i
    unfold finishUnit
    split
    · rename_i hq
      by_cases hiq : i = q
      · subst hiq
        have hmem : i ∈ s.inFlight := by simpa using hq
        have hpos : 0 < s.inFlight.count i := List.count_pos_iff.mpr hmem
        show (s.writes ++ [i]).count i + (s.inFlight.erase i).count i =
          s.started.count i
        rw [List.count_append, List.count_singleton_self,
          List.count_erase_self]
        omega
      · show (s.writes ++ [q]).count i + (s.inFlight.erase q).count i =
          s.started.count i
        rw [List.count_append, List.count_singleton,
          if_neg (by simpa using Ne.symm hiq), List.count_erase_of_ne hiq]
        omega
    · exact hbal

/-- C8: work units for the same quote id never run concurrently.  In every
scheduler state reachable from idle over ticks that read a well-keyed quotes
table, the in-flight lease set holds each quote id at most once; a tick that
selects a quote whose previous cycle is still in flight leaves that quote's
multiplicity unchanged (skipped, never queued twice); and the persisted
writes are accounted one-to-one against the due cycles started: per quote,
writes plus live leases equal started cycles, so each due cycle produces at
most one persisted write. -/
theorem same_quote_never_concurrent (es : List SchedEvent)
    (hok : ticksOk es = true) :
    (runSched es).inFlight.Nodup ∧
    (∀ i, (runSched es).inFlight.count i ≤ 1) ∧
    (∀ (s : SchedState) (table : List QuoteRow) (now : Nat) (i : Nat),
      i ∈ s.inFlight →
      (tickDispatch s table now).inFlight.count i = s.inFlight.count i) ∧
    (∀ i, (runSched es).writes.count i + (runSched es).inFlight.count i =
      (runSched es).started.count i) ∧
    (∀ i, (runSched es).writes.count i ≤ (runSched es).started.count i) := by
  have hrun : (runSched es).inFlight.Nodup := by
    suffices hgen : ∀ (s : SchedState), ticksOk es = true → s.inFlight.Nodup →
        (es.foldl stepSched s).inFlight.Nodup by
      exact hgen ⟨[], [], []⟩ hok (by simp)
    clear hok
    induction es with
    | nil => intro s _ h; exact h
    | cons e t ih =>
      intro s hok h
      rw [ticksOk, List.all_cons, Bool.and_eq_true] at hok
      refine ih _ hok.2 ?_
      cases e with
      | tick table now =>
        exact tickDispatch_nodup h (by simpa using hok.1) now
      | finish i => exact finishUnit_nodup h i
  have hbal : writesBalanced (runSched es) := by
    clear hrun hok
    suffices hgen : ∀ (s : SchedState), writesBalanced s →
        writesBalanced (es.foldl stepSched s) by
      exact hgen ⟨[], [], []⟩ (fun i => rfl)
    induction es with
    | nil => intro s h; exact h
    | cons e t ih =>
      intro s h
      exact ih _ (writesBalanced_step h e)
  refine ⟨hrun, fun i => List.nodup_iff_count_le_one.mp hrun i, ?_,
    fun i => hbal i, fun i => by have := hbal i; omega⟩
  intro s table now i hi
  unfold tickDispatch
  rw [List.count_append]
  have h0 : ((dueIds table now).filter
      (fun j => !s.inFlight.contains j)).count i = 0 := by
    rw [List.count_eq_zero]
    intro hmem
    rw [List.mem_filter] at hmem
    have hnot : i ∉ s.inFlight := by simpa using hmem.2
    exact hnot hi
  rw [h0]
  omega

/-- Witness for C8: two ticks both see quote 1 as due before its first cycle
completes; the second tick skips it, leaving a single lease, and after the
cycle completes the run holds exactly as many persisted writes for quote 1 as
cycles started for it. -/
theorem same_quote_never_concurrent_witness :
    (runSched [.tick [⟨1, 0⟩] 5, .tick [⟨1, 0⟩] 6]).inFlight.Nodup ∧
    (tickDispatch ⟨[1], [], [1]⟩ [⟨1, 0⟩] 6).inFlight.count 1 =
      (⟨[1], [], [1]⟩ : SchedState).inFlight.count 1 ∧
    (runSched [.tick [⟨1, 0⟩] 5, .tick [⟨1, 0⟩] 6, .finish 1]).writes.count 1 +
        (runSched [.tick [⟨1, 0⟩] 5, .tick [⟨1, 0⟩] 6,
          .finish 1]).inFlight.count 1 =
      (runSched [.tick [⟨1, 0⟩] 5, .tick [⟨1, 0⟩] 6, .finish 1]).started.count 1 :=
  ⟨(same_quote_never_concurrent [.tick [⟨1, 0⟩] 5, .tick [⟨1, 0⟩] 6]
      (by decide)).1,
   (same_quote_never_concurrent [] (by decide)).2.2.1 ⟨[1], [], [1]⟩ [⟨1, 0⟩] 6 1
      (by decide),
   (same_quote_never_concurrent [.tick [⟨1, 0⟩] 5, .tick [⟨1, 0⟩] 6, .finish 1]
      (by decide)).2.2.2.1 1⟩

/-! ## Similarity toolkit and matching engine

Modelled from the spec (§4.4): the backend matching engine is absent from the
snapshot.  The three-tier protocol is transcribed from §4.4; the semantic
tier's cosine score and the Adjudicator's verdict come from external services
and therefore enter the engine as parameters. -/

/-- A candidate document returned by the search tier. -/
structure Doc where
  url : List Char
  title : List Char
  snippet : List Char
  body : List Char

/-- The kind of an accepted match (`exact`, `partial`, `paraphrase`; the
middle one is spelled `partialM` here). -/
inductive MatchKind
  | exact
  | partialM
  | paraphrase
deriving DecidableEq

/-- The Matching Engine's verdict for one candidate document. -/
structure MatchVerdict where
  accept : Bool
  kind : Option MatchKind
  confidence : ℚ
deriving DecidableEq

/-- The Adjudicator's structured verdict (spec §4.4 step 4). -/
structure AdjVerdict where
  isMatch : Bool
  confidence : ℚ
deriving DecidableEq

/-- Auxiliary scan for `squashWs`: `prevWs` says whether the previous kept
character came from a whitespace run. -/
def squashAux (prevWs : Bool) : List Char → List Char
  | [] => []
  | c :: cs =>
    if isWs c then
      if prevWs then squashAux true cs else ' ' :: squashAux true cs
    else c :: squashAux false cs

/-- Collapse every whitespace run to a single space. -/
def squashWs (l : List Char) : List Char :=
  squashAux false l

/-- The case-insensitive, whitespace-normalised form of a text used by the
exact tier (spec §4.4 tier 1). -/
def normText (s : List Char) : List Char :=
  jsTrim (squashWs (jsLower s))

/-- Modelled from the spec: the hard client-label filter — the label must
occur case-insensitively somewhere in title or body (§4.4). -/
def hasLabel (label : List Char) (d : Doc) : Bool :=
  containsSeq (jsLower label) (jsLower d.title) ||
    containsSeq (jsLower label) (jsLower d.body)

/-- Modelled from the spec: tier 1 — the candidate body or snippet contains
the quote text verbatim (case-insensitive, whitespace-normalised) and the
candidate contains the client label (§4.4). -/
def exactCond (quote label : List Char) (d : Doc) : Bool :=
  (containsSeq (normText quote) (normText d.body) ||
    containsSeq (normText quote) (normText d.snippet)) && hasLabel label d

/-- The words of a normalised text. -/
def wordsOf (s : List Char) : List (List Char) :=
  ((normText s).splitOn ' ').filter (fun w => !w.isEmpty)

/-- Word-shingle length used by the lexical tier; the spec fixes shingling
without pinning this constant, so it is a modelling choice. -/
def shingleSize : Nat := 3

/-- All contiguous `k`-element windows of a list. -/
def windows (k : Nat) (l : List α) : List (List α) :=
  if l.length < k then []
  else (List.range (l.length - k + 1)).map (fun i => (l.drop i).take k)

/-- The word shingles of a text. -/
def shinglesOf (s : List Char) : List (List (List Char)) :=
  windows shingleSize (wordsOf s)

/-- Jaccard overlap of two finite sets given as lists. -/
def jaccard [DecidableEq α] (a b : List α) : ℚ :=
  let da := a.dedup
  let db := b.dedup
  let inter := da.filter (fun x => decide (x ∈ db))
  let union := da ++ db.filter (fun x => decide (x ∉ da))
  if union.isEmpty then 0 else mkRat inter.length union.length

/-- Sentence-like spans of a candidate document (split on periods). -/
def sentencesOf (d : Doc) : List (List Char) :=
  d.body.splitOn '.' ++ d.snippet.splitOn '.'

/-- Modelled from the spec: tier 2 — the best shingle-set Jaccard similarity
between a sentence-like span of the candidate and the quote text (§4.4). -/
def lexScore (quote : List Char) (d : Doc) : ℚ :=
  ((sentencesOf d).map
    (fun sp => jaccard (shinglesOf sp) (shinglesOf quote))).foldr max 0

/-- Modelled from the spec: the three-tier matching protocol of §4.4,
short-circuiting at the first satisfied tier.  `adj` is the verdict the
Adjudicator would return for the escalated span and `semScore` the external
embedding-cosine score of the best span; a document failing the client-label
hard filter is rejected before tier 1; tier 1 accepts exactly with confidence
1; tiers 2 and 3 escalate to the Adjudicator, which accepts only with
`match = true` and confidence ≥ 0.7, the kind being `partial` below 0.9 and
`paraphrase` from 0.9 on. -/
def matchEngine (adj : AdjVerdict) (semScore : ℚ) (quote label : List Char)
    (d : Doc) : MatchVerdict :=
  if !hasLabel label d then ⟨false, none, 0⟩
  else if exactCond quote label d then ⟨true, some .exact, 1⟩
  else if lexScore quote d ≥ mkRat 6 10 || semScore ≥ mkRat 78 100 then
    if adj.isMatch && adj.confidence ≥ mkRat 7 10 then
      ⟨true, some (if adj.confidence < mkRat 9 10 then .partialM else .paraphrase),
        adj.confidence⟩
    else ⟨false, none, adj.confidence⟩
  else ⟨false, none, 0⟩

/-- C3: a candidate that contains the quote verbatim (case-insensitive,
whitespace-normalised) together with the client label is accepted by tier 1
with `match_kind = exact` and confidence 1, for every Adjudicator verdict and
every semantic score — so neither the lexical tier, the semantic tier nor the
Adjudicator can influence the result. -/
theorem exact_tier_short_circuit (quote label : List Char) (d : Doc)
    (hx : exactCond quote label d = true) :
    ∀ (adj adj' : AdjVerdict) (sem sem' : ℚ),
      matchEngine adj sem quote label d = ⟨true, some .exact, 1⟩ ∧
      matchEngine adj sem quote label d = matchEngine adj' sem' quote label d := by
  have hl : hasLabel label d = true := by
    have := hx
    unfold exactCond at this
    exact (Bool.and_eq_true .. ▸ this).2
  intro adj adj' sem sem'
  constructor
  · unfold matchEngine
    rw [hl, hx]
    rfl
  · unfold matchEngine
    rw [hl, hx]
    rfl

/-- Witness for C3: the §8 scenario — quote `We are expanding to Europe`,
client `Acme`, candidate body `Acme: 'We are expanding to Europe'`. -/
theorem exact_tier_short_circuit_witness :
    matchEngine ⟨false, 0⟩ 0 "We are expanding to Europe".data "Acme".data
        ⟨"https://x".data, [], [], "Acme: 'We are expanding to Europe'".data⟩ =
      ⟨true, some .exact, 1⟩ :=
  (exact_tier_short_circuit "We are expanding to Europe".data "Acme".data
      ⟨"https://x".data, [], [], "Acme: 'We are expanding to Europe'".data⟩
      (by decide) ⟨false, 0⟩ ⟨false, 0⟩ 0 0).1

/-- C4: a candidate without the client label anywhere in title or body is
rejected before tier 1, whatever its textual overlap, semantic score or the
Adjudicator's opinion. -/
theorem label_hard_filter (quote label : List Char) (d : Doc)
    (h : hasLabel label d = false) :
    ∀ (adj : AdjVerdict) (sem : ℚ),
      matchEngine adj sem quote label d = ⟨false, none, 0⟩ := by
  intro adj sem
  unfold matchEngine
  rw [h]
  rfl

/-- Witness for C4: a document textually identical to the quote but lacking
the label is rejected. -/
theorem label_hard_filter_witness :
    matchEngine ⟨true, 1⟩ 1 "We are expanding to Europe".data "Acme".data
        ⟨"https://x".data, [], [], "We are expanding to Europe".data⟩ =
      ⟨false, none, 0⟩ :=
  label_hard_filter "We are expanding to Europe".data "Acme".data
    ⟨"https://x".data, [], [], "We are expanding to Europe".data⟩
    (by decide) ⟨true, 1⟩ 1

/-- C7: a tentative match (label present, no exact hit, lexical or semantic
tier satisfied) is accepted exactly when the Adjudicator answers
`match = true` with confidence ≥ 0.7, and an accepted match is `partial` when
that confidence is below 0.9 and `paraphrase` otherwise. -/
theorem adjudication_rule (quote label : List Char) (d : Doc)
    (adj : AdjVerdict) (sem : ℚ)
    (hl : hasLabel label d = true) (hx : exactCond quote label d = false)
    (ht : (lexScore quote d ≥ mkRat 6 10 || sem ≥ mkRat 78 100) = true) :
    ((matchEngine adj sem quote label d).accept = true ↔
      adj.isMatch = true ∧ mkRat 7 10 ≤ adj.confidence) ∧
    ((matchEngine adj sem quote label d).accept = true →
      (matchEngine adj sem quote label d).kind =
        some (if adj.confidence < mkRat 9 10 then .partialM else .paraphrase)) := by
  unfold matchEngine
  rw [hl, hx, ht]
  by_cases ha : (adj.isMatch && adj.confidence ≥ mkRat 7 10) = true
  · rw [if_pos ha]
    rw [Bool.and_eq_true, decide_eq_true_iff] at ha
    exact ⟨⟨fun _ => ha, fun _ => rfl⟩, fun _ => rfl⟩
  · rw [if_neg ha]
    rw [Bool.and_eq_true, decide_eq_true_iff] at ha
    exact ⟨⟨fun hfalse => absurd hfalse (by simp), fun hcontra => absurd hcontra ha⟩,
      fun hfalse => absurd hfalse (by simp)⟩

/-- Witness for C7: a candidate sharing 7 of 9 word-shingles with the quote
(Jaccard ≅ 0.78, no exact substring) escalates, and the Adjudicator verdict
`{match := true, confidence := 0.72}` yields an accepted `partial` match. -/
theorem adjudication_rule_witness :
    (matchEngine ⟨true, mkRat 72 100⟩ 0
        "one two three four five six seven eight nine ten".data "Acme".data
        ⟨"https://x".data, "Acme news".data, [],
          "one two three four five six seven eight nine zzz".data⟩).accept =
      true ∧
    (matchEngine ⟨true, mkRat 72 100⟩ 0
        "one two three four five six seven eight nine ten".data "Acme".data
        ⟨"https://x".data, "Acme news".data, [],
          "one two three four five six seven eight nine zzz".data⟩).kind =
      some .partialM := by
  have h := adjudication_rule
    "one two three four five six seven eight nine ten".data "Acme".data
    ⟨"https://x".data, "Acme news".data, [],
      "one two three four five six seven eight nine zzz".data⟩
    ⟨true, mkRat 72 100⟩ 0 (by decide) (by decide) (by decide)
  have hacc := h.1.mpr ⟨rfl, by norm_num⟩
  refine ⟨hacc, ?_⟩
  have hk := h.2 hacc
  rw [hk, if_pos (by norm_num)]

end Shift6
